import Mathlib

/-!
Verification of the genotypekit strategy framework (`src/genotypekit.hpp`).

The repository source provides the header only: class shapes, fields,
declared signatures and doc comments.  Function bodies are not part of the
sources, so every operation below is a shallow embedding modelled from the
specification, faithful to the header declarations where they speak (for
example `int total(const Support&)` fixes the return type of `total`).

C++ doubles are modelled as `ℚ`, machine ints as `ℤ`/`ℕ` (all values in the
claims stay far from overflow), maps as association lists, sets as lists.
-/

namespace vg

/-! ## Support values and their arithmetic -/

/-- Modelled from the spec: `Support` (declared in the external `vg.pb.h`,
not among the sources) is a numeric record holding forward-strand and
reverse-strand read-support counts, possibly quality-weighted and hence
fractional; C++ `double` strands are modelled as `ℚ`. -/
structure Support where
  forward : ℚ
  reverse : ℚ
deriving DecidableEq

/-- The all-zero Support, the default for elements absent from a support map. -/
def Support.zero : Support := ⟨0, 0⟩

/-- C++ `double` to `int` conversion: truncation toward zero. -/
def ratTrunc (q : ℚ) : ℤ := Int.tdiv q.num q.den

/-- Modelled from the spec: `total` returns the total read support, the sum
across strands; the header declares it as `int total(const Support&)`, so the
(possibly fractional) sum undergoes C++ integer conversion. -/
def total (s : Support) : ℤ := ratTrunc (s.forward + s.reverse)

/-- Modelled from the spec: `support_min` takes the minimum in each
orientation (per-strand, not min-of-totals). -/
def support_min (a b : Support) : Support :=
  ⟨min a.forward b.forward, min a.reverse b.reverse⟩

/-- Modelled from the spec: `operator+` adds two Support values together,
accounting for strand (per-strand sum). -/
def supportAdd (a b : Support) : Support :=
  ⟨a.forward + b.forward, a.reverse + b.reverse⟩

instance : Add Support := ⟨supportAdd⟩

/-- Modelled from the spec: `operator*(const Support&, const size_t&)` scales
each strand count by an integral factor. -/
def support_mul_scale (s : Support) (k : ℕ) : Support :=
  ⟨s.forward * k, s.reverse * k⟩

/-- Modelled from the spec: `operator*(const size_t&, const Support&)`, the
other overload, scales each strand count by an integral factor. -/
def scale_mul_support (k : ℕ) (s : Support) : Support :=
  ⟨(k : ℚ) * s.forward, (k : ℚ) * s.reverse⟩

/-! ## The augmented graph -/

/-- `ElementCall` from the header: how an augmented-graph element arose. -/
inductive ElementCall where
  | CALL_DELETION
  | CALL_REFERENCE
  | CALL_UNCALLED
  | CALL_SUBSTITUTION
  | CALL_INSERTION
deriving DecidableEq

/-- A node visited in a direction (`NodeTraversal` in the source): a node
identifier plus a traversal direction. -/
structure NT where
  id : ℕ
  backward : Bool
deriving DecidableEq

/-- An edge of the bidirected graph, as the ordered pair of oriented
endpoints. -/
abbrev Edge := NT × NT

/-- The wrapped variation graph (the external `VG` class): node identifiers,
node sequence lengths in base pairs, and edges. -/
structure VGGraph where
  nodeIds : List ℕ
  nodeLens : List (ℕ × ℕ)
  edges : List Edge
deriving DecidableEq

/-- Modelled from the spec: a `Translation` record maps a whole new node back
to the piece of the single old node it came from. -/
structure Translation where
  newNodeId : ℕ
  oldNodeId : ℕ
  oldOffset : ℕ
  pieceLen : ℕ
deriving DecidableEq

/-- `AugmentedGraph` from the header: the wrapped graph plus the per-node and
per-edge call, support and likelihood maps and the translation list.
Identity-keyed C++ maps become association lists keyed by node id / edge. -/
structure AugmentedGraph where
  graph : VGGraph
  node_calls : List (ℕ × ElementCall)
  edge_calls : List (Edge × ElementCall)
  node_supports : List (ℕ × Support)
  edge_supports : List (Edge × Support)
  node_likelihoods : List (ℕ × ℚ)
  edge_likelihoods : List (Edge × ℚ)
  translations : List Translation
deriving DecidableEq

/-- Modelled from the spec: `AugmentedGraph::clear()` resets all the
annotation maps and the translation list while leaving the graph untouched. -/
def AugmentedGraph.clear (ag : AugmentedGraph) : AugmentedGraph :=
  ⟨ag.graph, [], [], [], [], [], [], []⟩

/-- Association-list lookup. -/
def alookup {α β : Type} [DecidableEq α] : List (α × β) → α → Option β
  | [], _ => none
  | kv :: rest, k => if kv.1 = k then some kv.2 else alookup rest k

/-- Support recorded for a node; per the spec a node absent from the support
map has zero/unknown support. -/
def nodeSupportOf (ag : AugmentedGraph) (i : ℕ) : Support :=
  (alookup ag.node_supports i).getD Support.zero

/-- Support recorded for an edge; absence means zero/unknown support. -/
def edgeSupportOf (ag : AugmentedGraph) (e : Edge) : Support :=
  (alookup ag.edge_supports e).getD Support.zero

/-- Length of a node in base pairs. -/
def nodeLenOf (g : VGGraph) (i : ℕ) : ℕ :=
  (alookup g.nodeLens i).getD 1

/-! ## Snarls and traversals -/

/-- A site (`Snarl`): a pair of oriented boundary nodes delimiting a region,
plus the identifiers of the nodes it contains. -/
structure Snarl where
  start : NT
  finish : NT
  contents : List ℕ
deriving DecidableEq

/-- A `SnarlTraversal`: an ordered, oriented sequence of node visits. -/
abbrev SnarlTraversal := List NT

/-- The distinct successors of an oriented node along the graph edges. -/
def successors (g : VGGraph) (x : NT) : List NT :=
  ((g.edges.filter (fun e => decide (e.1 = x))).map (fun e => e.2)).dedup

/-- The distinct predecessors of an oriented node along the graph edges. -/
def predecessors (g : VGGraph) (x : NT) : List NT :=
  ((g.edges.filter (fun e => decide (e.2 = x))).map (fun e => e.1)).dedup

/-- Whether consecutive elements of a node list are all joined by edges. -/
def isEdgeChain (g : VGGraph) : List NT → Bool
  | [] => true
  | [_] => true
  | x :: y :: rest => decide ((x, y) ∈ g.edges) && isEdgeChain g (y :: rest)

/-! ## ExhaustiveTraversalFinder -/

/-- Modelled from the spec: the depth-first enumeration behind
`ExhaustiveTraversalFinder::find_traversals`, walking from `cur` toward
`goal`, never revisiting a node id (`visited` holds the ids already on the
walk, including `cur`); `fuel` bounds the remaining depth. -/
def exhaustiveDFS (g : VGGraph) (goal : NT) : ℕ → NT → List ℕ → List (List NT)
  | 0, cur, _ => if cur = goal then [[cur]] else []
  | fuel + 1, cur, visited =>
    if cur = goal then [[cur]]
    else
      ((successors g cur).filter (fun n => decide (n.id ∉ visited))).flatMap
        (fun n =>
          (exhaustiveDFS g goal fuel n (n.id :: visited)).map (fun q => cur :: q))

/-- Modelled from the spec: `ExhaustiveTraversalFinder::find_traversals`
exhaustively enumerates every simple path from the site start boundary to the
site end boundary. -/
def exh_find_traversals (g : VGGraph) (site : Snarl) : List SnarlTraversal :=
  (exhaustiveDFS g site.finish (g.edges.length + 1) site.start [site.start.id]).dedup

/-- A simple path through the site: it starts at the start boundary, ends at
the end boundary, walks along edges and visits no node id twice. -/
def IsSimpleTraversal (g : VGGraph) (site : Snarl) (p : List NT) : Prop :=
  p.head? = some site.start ∧ p.getLast? = some site.finish ∧
    isEdgeChain g p = true ∧ (p.map (fun x => x.id)).Nodup

instance (g : VGGraph) (site : Snarl) (p : List NT) :
    Decidable (IsSimpleTraversal g site p) := by
  unfold IsSimpleTraversal; infer_instance

/-! ## ReadRestrictedTraversalFinder -/

/-- Modelled from the spec: the state `ReadRestrictedTraversalFinder` works
from.  `sitePaths` pairs the name of each embedded path of the graph that
crosses the site with the traversal segment it takes through the site (read
names are numbers here); `readNames` is the domain of the reads-by-name map,
so a path whose name is not a read name is a real named embedded path. -/
structure ReadRestrictedTraversalFinder where
  sitePaths : List (ℕ × SnarlTraversal)
  readNames : List ℕ
  min_recurrence : ℕ
deriving DecidableEq

/-- Whether a traversal coincides with a named embedded path (one whose name
is not the name of a read). -/
def isNamedTraversal (f : ReadRestrictedTraversalFinder) (t : SnarlTraversal) : Bool :=
  f.sitePaths.any (fun pr => decide (pr.2 = t) && decide (pr.1 ∉ f.readNames))

/-- The number of distinct reads whose path through the site is exactly `t`. -/
def readSupportCount (f : ReadRestrictedTraversalFinder) (t : SnarlTraversal) : ℕ :=
  ((f.sitePaths.filter
      (fun pr => decide (pr.2 = t) && decide (pr.1 ∈ f.readNames))).map
        (fun pr => pr.1)).dedup.length

/-- Modelled from the spec: `ReadRestrictedTraversalFinder::find_traversals`
emits the traversals with unique sequences taken by embedded paths, keeping a
traversal only if it is a named embedded path or recurs in at least
`min_recurrence` distinct reads. -/
def rr_find_traversals (f : ReadRestrictedTraversalFinder) : List SnarlTraversal :=
  ((f.sitePaths.map (fun pr => pr.2)).dedup).filter
    (fun t => isNamedTraversal f t || decide (f.min_recurrence ≤ readSupportCount f t))

/-! ## RepresentativeTraversalFinder -/

/-- The finder state from the header: the augmented graph, the index of the
primary reference path (the ordered node ids along it), and the search
bounds. -/
structure RepresentativeTraversalFinder where
  augmented : AugmentedGraph
  index : List ℕ
  max_depth : ℕ
  max_bubble_paths : ℕ
deriving DecidableEq

/-- Whether a node may be visited by the bubble search: per the spec, nodes
with zero support are pruned, skipped as if absent. -/
def supOk (ag : AugmentedGraph) (i : ℕ) : Bool :=
  decide (nodeSupportOf ag i ≠ Support.zero)

/-- Whether the last node of a partial rightward search path has reached the
reference path index. -/
def onRefLast (index : List ℕ) (p : List NT) : Bool :=
  match p.getLast? with
  | some x => decide (x.id ∈ index)
  | none => false

/-- Whether the first node of a partial leftward search path has reached the
reference path index. -/
def onRefHead (index : List ℕ) (p : List NT) : Bool :=
  match p.head? with
  | some x => decide (x.id ∈ index)
  | none => false

/-- One rightward breadth-first extension of a partial path, through supported
nodes only. -/
def stepRight (ag : AugmentedGraph) (p : List NT) : List (List NT) :=
  match p.getLast? with
  | none => []
  | some x =>
      ((successors ag.graph x).filter (fun n => supOk ag n.id)).map
        (fun n => p ++ [n])

/-- One leftward breadth-first extension of a partial path, through supported
nodes only. -/
def stepLeft (ag : AugmentedGraph) (p : List NT) : List (List NT) :=
  match p.head? with
  | none => []
  | some x =>
      ((predecessors ag.graph x).filter (fun n => supOk ag n.id)).map
        (fun n => n :: p)

/-- Modelled from the spec: the breadth-first frontier loop shared by
`bfs_left` and `bfs_right`.  Paths whose far end has reached the reference
path are collected; the others are extended by `step`, up to `fuel` rounds. -/
def bfsGo (stop : List NT → Bool) (step : List NT → List (List NT)) :
    ℕ → List (List NT) → List (List NT)
  | 0, frontier => frontier.filter stop
  | fuel + 1, frontier =>
      frontier.filter stop ++
        bfsGo stop step fuel
          ((frontier.filter (fun p => !stop p)).flatMap step)

/-- `bp_length`: the length of a path through nodes, in base pairs. -/
def bp_length (ag : AugmentedGraph) (p : List NT) : ℕ :=
  (p.map (fun x => nodeLenOf ag.graph x.id)).sum

/-- Modelled from the spec: `bfs_left` searches breadth-first leftward from
`n` until the reference path is reached, refusing to visit nodes with no
support, and returns the discovered (length in base pairs, path) pairs, the
path running from the reference back to `n`; results are capped by
`max_bubble_paths` and the depth by `max_depth`. -/
def bfs_left (rf : RepresentativeTraversalFinder) (n : NT) : List (ℕ × List NT) :=
  ((bfsGo (onRefHead rf.index) (stepLeft rf.augmented) rf.max_depth [[n]]).map
      (fun p => (bp_length rf.augmented p, p))).take rf.max_bubble_paths

/-- Modelled from the spec: `bfs_right`, the mirror search rightward from
`n`, the path running from `n` out to the reference. -/
def bfs_right (rf : RepresentativeTraversalFinder) (n : NT) : List (ℕ × List NT) :=
  ((bfsGo (onRefLast rf.index) (stepRight rf.augmented) rf.max_depth [[n]]).map
      (fun p => (bp_length rf.augmented p, p))).take rf.max_bubble_paths

/-- The edges between consecutive nodes of a path. -/
def consecEdges (p : List NT) : List Edge := p.zip p.tail

/-- The Support values of all constituent elements of a bubble path: every
node on it and every edge joining consecutive nodes (the reference endpoint
nodes and their connecting edges included). -/
def constituentSupports (ag : AugmentedGraph) (p : List NT) : List Support :=
  p.map (fun x => nodeSupportOf ag x.id) ++ (consecEdges p).map (fun e => edgeSupportOf ag e)

/-- Modelled from the spec: `min_support_in_path` takes the minimum support
of all nodes and edges in the path. -/
def min_support_in_path (ag : AugmentedGraph) (p : List NT) : Support :=
  match constituentSupports ag p with
  | [] => Support.zero
  | s :: rest => rest.foldl support_min s

/-- Modelled from the spec: a candidate bubble is kept only when its two
reference-path endpoints are oriented forward along the path, the endpoint
closer to the reference start comes first, and no node is visited twice. -/
def validBubble (index : List ℕ) (p : List NT) : Bool :=
  match p.head?, p.getLast? with
  | some a, some b =>
      (!a.backward) && (!b.backward) &&
        decide (a.id ∈ index) && decide (b.id ∈ index) &&
        decide (List.indexOf a.id index ≤ List.indexOf b.id index) &&
        decide ((p.map (fun x => x.id)).Nodup)
  | _, _ => false

/-- Modelled from the spec: the candidate bubbles for an element (a node id or
an edge; exactly one of the two), combining each leftward search result with
each rightward search result.  For a node both searches run from the node,
which is kept once; for an edge the left search runs from its first endpoint
and the right search from its second. -/
def bubbleCandidates (rf : RepresentativeTraversalFinder) (el : ℕ ⊕ Edge) :
    List (List NT) :=
  match el with
  | Sum.inl i =>
      (bfs_left rf ⟨i, false⟩).flatMap (fun lp =>
        (bfs_right rf ⟨i, false⟩).map (fun rp => lp.2 ++ rp.2.tail))
  | Sum.inr e =>
      (bfs_left rf e.1).flatMap (fun lp =>
        (bfs_right rf e.2).map (fun rp => lp.2 ++ rp.2))

/-- Modelled from the spec: `find_bubble` keeps the consistently oriented,
non-revisiting candidates and picks a shortest one by base-pair length,
returning it with the minimum support found on any of its nodes or edges. -/
def find_bubble (rf : RepresentativeTraversalFinder) (el : ℕ ⊕ Edge) :
    Option (Support × List NT) :=
  (((bubbleCandidates rf el).filter (validBubble rf.index)).argmin
      (bp_length rf.augmented)).map
    (fun p => (min_support_in_path rf.augmented p, p))

/-- Modelled from the spec: the primary-path traversal through the site, when
the site touches the indexed reference path: the stretch of the reference
path between the two boundary nodes, oriented forward. -/
def primary_traversal (index : List ℕ) (site : Snarl) : Option (List NT) :=
  if site.start.id ∈ index ∧ site.finish.id ∈ index ∧
      List.indexOf site.start.id index ≤ List.indexOf site.finish.id index then
    some (((index.drop (List.indexOf site.start.id index)).take
        (List.indexOf site.finish.id index - List.indexOf site.start.id index + 1)).map
          (fun i => ⟨i, false⟩))
  else none

/-- The elements of interest of a site: its content nodes, and the graph
edges lying between content nodes. -/
def repElements (rf : RepresentativeTraversalFinder) (site : Snarl) :
    List (ℕ ⊕ Edge) :=
  site.contents.map Sum.inl ++
    ((rf.augmented.graph.edges.filter
        (fun e => decide (e.1.id ∈ site.contents) && decide (e.2.id ∈ site.contents))).map
      Sum.inr)

/-- The bubble paths found for the elements of interest of a site. -/
def repBubbles (rf : RepresentativeTraversalFinder) (site : Snarl) :
    List (List NT) :=
  (repElements rf site).filterMap (fun el => (find_bubble rf el).map (fun pr => pr.2))

/-- Modelled from the spec: `RepresentativeTraversalFinder::find_traversals`
finds a bubble for each node and edge of the site, deduplicates the bubbles,
and always emits the primary-path traversal first when one exists. -/
def rep_find_traversals (rf : RepresentativeTraversalFinder) (site : Snarl) :
    List SnarlTraversal :=
  match primary_traversal rf.index site with
  | some p0 => p0 :: ((repBubbles rf site).filter (fun p => decide (p ≠ p0))).dedup
  | none => (repBubbles rf site).dedup

/-! ## FixedGenotypePriorCalculator -/

/-- A genotype: the multiset of traversal indices, one per ploidy slot. -/
abbrev Genotype := List ℕ

/-- Modelled from the spec: a genotype is homozygous when every allele slot
names the same traversal. -/
def is_homozygous : Genotype → Bool
  | [] => true
  | a :: rest => rest.all (fun x => decide (x = a))

/-- The calculator from the header: a fixed log prior for homozygous
genotypes and a fixed log prior for hets. -/
structure FixedGenotypePriorCalculator where
  homozygous_prior_ln : ℝ
  heterozygous_prior_ln : ℝ

/-- `prob_to_logprob` from the utilities: the natural log of a probability. -/
noncomputable def prob_to_logprob (p : ℝ) : ℝ := Real.log p

/-- The default-constructed calculator, with the header's defaults
`prob_to_logprob(0.999)` and `prob_to_logprob(0.001)`. -/
noncomputable def defaultFixedGenotypePrior : FixedGenotypePriorCalculator :=
  ⟨prob_to_logprob 0.999, prob_to_logprob 0.001⟩

/-- Modelled from the spec: `calculate_log_prior` returns the homozygous
constant for homozygous genotypes and the heterozygous constant otherwise,
independent of allele identity. -/
def calculate_log_prior (c : FixedGenotypePriorCalculator) (g : Genotype) : ℝ :=
  if is_homozygous g then c.homozygous_prior_ln else c.heterozygous_prior_ln

/-! ## Specification predicates for the proofs -/

/-- The invariant of the exhaustive depth-first enumeration: `p` runs from
`cur` to `goal` along edges, repeats no node id, and its continuation after
`cur` stays off the already-visited ids. -/
def GoodPath (g : VGGraph) (goal cur : NT) (visited : List ℕ) (p : List NT) : Prop :=
  p.head? = some cur ∧ p.getLast? = some goal ∧ isEdgeChain g p = true ∧
    (p.map (fun x => x.id)).Nodup ∧ ∀ x ∈ p.tail, x.id ∉ visited

/-! ## Concrete instances used by the witnesses -/

/-- A small concrete graph: reference path 1-2-3 with alternate path 1-4-3. -/
def gW : VGGraph :=
  ⟨[1, 2, 3, 4], [(1, 1), (2, 1), (3, 1), (4, 1)],
    [(⟨1, false⟩, ⟨2, false⟩), (⟨2, false⟩, ⟨3, false⟩),
     (⟨1, false⟩, ⟨4, false⟩), (⟨4, false⟩, ⟨3, false⟩)]⟩

/-- The graph `gW` augmented with supports on its nodes and alternate edges. -/
def agW : AugmentedGraph :=
  ⟨gW, [], [],
    [(1, ⟨5, 5⟩), (2, ⟨5, 5⟩), (3, ⟨5, 5⟩), (4, ⟨1, 0⟩)],
    [((⟨1, false⟩, ⟨4, false⟩), ⟨2, 2⟩), ((⟨4, false⟩, ⟨3, false⟩), ⟨3, 1⟩)],
    [], [], []⟩

/-- A representative finder over `agW`, indexed on the reference path 1-2-3. -/
def rfW : RepresentativeTraversalFinder := ⟨agW, [1, 2, 3], 3, 5⟩

/-- The site of `gW` between nodes 1 and 3, containing nodes 2 and 4. -/
def siteW : Snarl := ⟨⟨1, false⟩, ⟨3, false⟩, [2, 4]⟩

/-- A read-restricted finder: reads 1 and 2 take one traversal, read 3
another, and embedded path 10 a third. -/
def rrW : ReadRestrictedTraversalFinder :=
  ⟨[(1, [⟨1, false⟩, ⟨2, false⟩]), (2, [⟨1, false⟩, ⟨2, false⟩]),
    (3, [⟨1, false⟩, ⟨4, false⟩]), (10, [⟨1, false⟩, ⟨3, false⟩])],
   [1, 2, 3], 2⟩

/-- A Support value with a fractional quality-weighted strand count. -/
def sW : Support := ⟨3 / 2, 1⟩

/-! ## Helper lemmas -/

theorem mem_of_getLast?_eq {α : Type} {l : List α} {a : α}
    (h : l.getLast? = some a) : a ∈ l := by
  have hx : a ∈ l.getLast? := by rw [h]; rfl
  obtain ⟨hne, rfl⟩ := List.mem_getLast?_eq_getLast hx
  exact List.getLast_mem hne

theorem ratTrunc_intCast (z : ℤ) : ratTrunc ((z : ℚ)) = z := by
  unfold ratTrunc
  rw [Rat.intCast_num, Rat.intCast_den]
  exact Int.tdiv_one z

theorem ratTrunc_eq_floor (q : ℚ) (h : 0 ≤ q) : ratTrunc q = ⌊q⌋ := by
  rw [Rat.floor_def]
  have h1 : 0 ≤ q.num := Rat.num_nonneg.2 h
  have h2 : (0 : ℤ) ≤ (q.den : ℤ) := by positivity
  exact Int.tdiv_eq_ediv h1 h2

theorem supportAdd_def (a b : Support) : a + b = supportAdd a b := rfl

/-! ## Claim C8 -/

/-- Claim C8: `AugmentedGraph::clear()` resets all of the annotation maps
(call, support and likelihood maps for nodes and edges) and the translation
list to empty, and leaves the wrapped graph unchanged. -/
theorem augmented_clear_resets (ag : AugmentedGraph) :
    ag.clear.graph = ag.graph ∧ ag.clear.node_calls = [] ∧
      ag.clear.edge_calls = [] ∧ ag.clear.node_supports = [] ∧
      ag.clear.edge_supports = [] ∧ ag.clear.node_likelihoods = [] ∧
      ag.clear.edge_likelihoods = [] ∧ ag.clear.translations = [] :=
  ⟨rfl, rfl, rfl, rfl, rfl, rfl, rfl, rfl⟩

/-! ## Claim C9 -/

/-- Claim C9: the two overloads of Support scaling agree (`s * k == k * s`)
and both scale each strand count of `s` by `k`. -/
theorem support_scale_overloads_agree (s : Support) (k : ℕ) :
    support_mul_scale s k = scale_mul_support k s ∧
      (support_mul_scale s k).forward = s.forward * k ∧
      (support_mul_scale s k).reverse = s.reverse * k ∧
      (scale_mul_support k s).forward = s.forward * k ∧
      (scale_mul_support k s).reverse = s.reverse * k := by
  unfold support_mul_scale scale_mul_support
  exact ⟨by simp [Support.mk.injEq, mul_comm], rfl, rfl, mul_comm _ _, mul_comm _ _⟩

/-! ## Claim C6 -/

/-- Claim C6, counterexample: with fractional quality-weighted strand counts
(which the spec's `Support` admits) `total` does not distribute over
addition, because the declared `int` return type truncates each total:
for a = Support(1/2, 0), total(a + a) = 1 but total(a) + total(a) = 0. -/
theorem total_not_additive_counterexample :
    total (Support.mk (1 / 2) 0 + Support.mk (1 / 2) 0) ≠
      total (Support.mk (1 / 2) 0) + total (Support.mk (1 / 2) 0) := by
  have hl : Support.mk (1 / 2) 0 + Support.mk (1 / 2) 0 = Support.mk 1 0 := by
    rw [supportAdd_def]
    unfold supportAdd
    norm_num
  have h1 : total (Support.mk 1 0) = 1 := by
    unfold total
    show ratTrunc ((1 : ℚ) + 0) = 1
    rw [add_zero]
    have : ((1 : ℤ) : ℚ) = (1 : ℚ) := by norm_num
    rw [← this, ratTrunc_intCast]
  have h2 : total (Support.mk (1 / 2) 0) = 0 := by
    unfold total
    show ratTrunc ((1 : ℚ) / 2 + 0) = 0
    rw [add_zero, ratTrunc_eq_floor _ (by norm_num), Int.floor_eq_zero_iff]
    constructor <;> norm_num
  rw [hl, h1, h2]
  decide

/-- Claim C6, amended: `support_min` is the per-strand minimum, commutative
and idempotent; Support addition is commutative and associative; and `total`
distributes over addition whenever the strand counts involved are whole
numbers — for fractional quality-weighted counts distributivity can fail
(see the counterexample), since `total` truncates to `int`. -/
theorem support_algebra_amended (a b c : Support) :
    support_min a b = support_min b a ∧
      support_min a a = a ∧
      (support_min a b).forward = min a.forward b.forward ∧
      (support_min a b).reverse = min a.reverse b.reverse ∧
      a + b = b + a ∧
      (a + b) + c = a + (b + c) ∧
      ((a.forward.den = 1 ∧ a.reverse.den = 1 ∧ b.forward.den = 1 ∧
          b.reverse.den = 1) →
        total (a + b) = total a + total b) := by
  refine ⟨?_, ?_, rfl, rfl, ?_, ?_, ?_⟩
  · unfold support_min
    simp [Support.mk.injEq, min_comm]
  · cases a
    simp [support_min]
  · rw [supportAdd_def, supportAdd_def]
    unfold supportAdd
    simp [Support.mk.injEq]
    constructor <;> ring
  · rw [supportAdd_def b c, supportAdd_def a b, supportAdd_def, supportAdd_def]
    unfold supportAdd
    simp [Support.mk.injEq]
    constructor <;> ring
  · rintro ⟨hf1, hr1, hf2, hr2⟩
    have ef1 := (Rat.den_eq_one_iff _).1 hf1
    have er1 := (Rat.den_eq_one_iff _).1 hr1
    have ef2 := (Rat.den_eq_one_iff _).1 hf2
    have er2 := (Rat.den_eq_one_iff _).1 hr2
    rw [supportAdd_def]
    unfold supportAdd total
    dsimp only
    rw [← ef1, ← er1, ← ef2, ← er2]
    have e1 : ((a.forward.num : ℚ) + b.forward.num) + ((a.reverse.num : ℚ) + b.reverse.num) =
        ((a.forward.num + b.forward.num + a.reverse.num + b.reverse.num : ℤ) : ℚ) := by
      push_cast; ring
    have e2 : (a.forward.num : ℚ) + a.reverse.num =
        ((a.forward.num + a.reverse.num : ℤ) : ℚ) := by push_cast; ring
    have e3 : (b.forward.num : ℚ) + b.reverse.num =
        ((b.forward.num + b.reverse.num : ℤ) : ℚ) := by push_cast; ring
    rw [e1, e2, e3, ratTrunc_intCast, ratTrunc_intCast, ratTrunc_intCast]
    ring

/-- Witness for C6's amended theorem at concrete whole-number Supports. -/
theorem support_algebra_amended_witness :
    support_min (Support.mk 2 3) (Support.mk 1 5) =
        support_min (Support.mk 1 5) (Support.mk 2 3) ∧
      total (Support.mk 2 3 + Support.mk 1 5) =
        total (Support.mk 2 3) + total (Support.mk 1 5) :=
  ⟨(support_algebra_amended (Support.mk 2 3) (Support.mk 1 5) (Support.mk 0 0)).1,
    (support_algebra_amended (Support.mk 2 3) (Support.mk 1 5) (Support.mk 0 0)).2.2.2.2.2.2
      ⟨by decide, by decide, by decide, by decide⟩⟩

/-! ## Claim C10 -/

/-- Claim C10: `total` is declared to return `int`; its value is the integer
conversion of the (possibly fractional, quality-weighted) sum of the strand
counts: for non-negative counts it is the greatest integer below the exact
sum, and it equals the exact sum precisely when that sum is a whole number,
so fractional parts are not preserved. -/
theorem total_is_integer_conversion (s : Support)
    (hf : 0 ≤ s.forward) (hr : 0 ≤ s.reverse) :
    ((total s : ℚ) ≤ s.forward + s.reverse ∧
        s.forward + s.reverse < (total s : ℚ) + 1) ∧
      ((total s : ℚ) = s.forward + s.reverse ↔
        (s.forward + s.reverse).den = 1) := by
  have hq : 0 ≤ s.forward + s.reverse := add_nonneg hf hr
  have ht : total s = ⌊s.forward + s.reverse⌋ := ratTrunc_eq_floor _ hq
  constructor
  · rw [ht]
    exact ⟨Int.floor_le _, Int.lt_floor_add_one _⟩
  · rw [ht]
    constructor
    · intro h
      rw [← h]
      exact Rat.den_intCast _
    · intro h
      have e := (Rat.den_eq_one_iff _).1 h
      rw [← e, Int.floor_intCast]

/-- Witness for C10 at the fractional Support sW = (3/2, 1). -/
theorem total_is_integer_conversion_witness :
    (0 ≤ sW.forward ∧ 0 ≤ sW.reverse) ∧
      (((total sW : ℚ) ≤ sW.forward + sW.reverse ∧
          sW.forward + sW.reverse < (total sW : ℚ) + 1) ∧
        ((total sW : ℚ) = sW.forward + sW.reverse ↔
          (sW.forward + sW.reverse).den = 1)) :=
  ⟨⟨by norm_num [sW], by norm_num [sW]⟩,
    total_is_integer_conversion sW (by norm_num [sW]) (by norm_num [sW])⟩

/-! ## Claim C7 -/

/-- Claim C7: the default `FixedGenotypePriorCalculator` returns log(0.001)
for every heterozygous genotype and log(0.999) for every homozygous one, and
the homozygous value is always strictly greater than the heterozygous one. -/
theorem fixed_prior_values (g h : Genotype) :
    (is_homozygous g = false →
        calculate_log_prior defaultFixedGenotypePrior g = Real.log 0.001) ∧
      (is_homozygous g = true →
        calculate_log_prior defaultFixedGenotypePrior g = Real.log 0.999) ∧
      (is_homozygous g = true → is_homozygous h = false →
        calculate_log_prior defaultFixedGenotypePrior h <
          calculate_log_prior defaultFixedGenotypePrior g) := by
  refine ⟨?_, ?_, ?_⟩
  · intro hg
    simp [calculate_log_prior, hg, defaultFixedGenotypePrior, prob_to_logprob]
  · intro hg
    simp [calculate_log_prior, hg, defaultFixedGenotypePrior, prob_to_logprob]
  · intro hg hh
    simp only [calculate_log_prior, hg, hh, defaultFixedGenotypePrior,
      prob_to_logprob, if_true, if_false, Bool.false_eq_true]
    exact Real.log_lt_log (by norm_num) (by norm_num)

/-- Witness for C7 at the het genotype 0/1 and the hom genotype 2/2. -/
theorem fixed_prior_values_witness :
    calculate_log_prior defaultFixedGenotypePrior [0, 1] = Real.log 0.001 ∧
      calculate_log_prior defaultFixedGenotypePrior [2, 2] = Real.log 0.999 ∧
      calculate_log_prior defaultFixedGenotypePrior [0, 1] <
        calculate_log_prior defaultFixedGenotypePrior [2, 2] :=
  ⟨(fixed_prior_values [0, 1] [0, 1]).1 (by decide),
    (fixed_prior_values [2, 2] [0, 1]).2.1 (by decide),
    (fixed_prior_values [2, 2] [0, 1]).2.2 (by decide) (by decide)⟩

/-! ## Claim C4 -/

/-- Claim C4: every traversal returned by
`ReadRestrictedTraversalFinder::find_traversals` either coincides with a
named embedded path or is supported by at least `min_recurrence` distinct
reads (exhibited as a duplicate-free list of read names, each of which takes
exactly this traversal through the site). -/
theorem read_restricted_min_recurrence (f : ReadRestrictedTraversalFinder)
    (t : SnarlTraversal) (h : t ∈ rr_find_traversals f) :
    isNamedTraversal f t = true ∨
      ∃ names : List ℕ, names.Nodup ∧ f.min_recurrence ≤ names.length ∧
        ∀ nm ∈ names, nm ∈ f.readNames ∧ (nm, t) ∈ f.sitePaths := by
  unfold rr_find_traversals at h
  rw [List.mem_filter] at h
  rcases h with ⟨-, hp⟩
  rw [Bool.or_eq_true] at hp
  rcases hp with hn | hc
  · exact Or.inl hn
  · right
    rw [decide_eq_true_eq] at hc
    refine ⟨((f.sitePaths.filter
        (fun pr => decide (pr.2 = t) && decide (pr.1 ∈ f.readNames))).map
          (fun pr => pr.1)).dedup, List.nodup_dedup _, ?_, ?_⟩
    · simpa [readSupportCount] using hc
    · intro nm hnm
      rw [List.mem_dedup, List.mem_map] at hnm
      obtain ⟨pr, hpr, rfl⟩ := hnm
      rw [List.mem_filter] at hpr
      obtain ⟨hmem, hcond⟩ := hpr
      rw [Bool.and_eq_true, decide_eq_true_eq, decide_eq_true_eq] at hcond
      refine ⟨hcond.2, ?_⟩
      have he : pr = (pr.1, t) := by
        cases pr
        simp_all
      rw [← he]
      exact hmem

/-- Witness for C4 at the finder rrW and the traversal taken by reads 1, 2. -/
theorem read_restricted_min_recurrence_witness :
    ([⟨1, false⟩, ⟨2, false⟩] : SnarlTraversal) ∈ rr_find_traversals rrW ∧
      (isNamedTraversal rrW [⟨1, false⟩, ⟨2, false⟩] = true ∨
        ∃ names : List ℕ, names.Nodup ∧ rrW.min_recurrence ≤ names.length ∧
          ∀ nm ∈ names, nm ∈ rrW.readNames ∧
            (nm, ([⟨1, false⟩, ⟨2, false⟩] : SnarlTraversal)) ∈ rrW.sitePaths) :=
  ⟨by decide, read_restricted_min_recurrence rrW _ (by decide)⟩

/-! ## Claim C3 -/

theorem bfsGo_invariant (stop : List NT → Bool) (step : List NT → List (List NT))
    (P : List NT → Prop) (hstep : ∀ p, P p → ∀ q ∈ step p, P q) :
    ∀ (fuel : ℕ) (frontier : List (List NT)),
      (∀ p ∈ frontier, P p) → ∀ p ∈ bfsGo stop step fuel frontier, P p := by
  intro fuel
  induction fuel with
  | zero =>
      intro fr hfr p hp
      exact hfr _ (List.mem_of_mem_filter hp)
  | succ n ih =>
      intro fr hfr p hp
      unfold bfsGo at hp
      rw [List.mem_append] at hp
      rcases hp with hp | hp
      · exact hfr _ (List.mem_of_mem_filter hp)
      · refine ih _ ?_ _ hp
        intro q hq
        rw [List.mem_flatMap] at hq
        obtain ⟨r, hr, hq⟩ := hq
        exact hstep r (hfr _ (List.mem_of_mem_filter hr)) q hq

theorem stepRight_mem (ag : AugmentedGraph) (p q : List NT)
    (hq : q ∈ stepRight ag p) (x : NT) (hx : x ∈ q) :
    x ∈ p ∨ supOk ag x.id = true := by
  unfold stepRight at hq
  cases hl : p.getLast? with
  | none =>
      rw [hl] at hq
      cases hq
  | some y =>
      rw [hl] at hq
      rw [List.mem_map] at hq
      obtain ⟨m, hm, rfl⟩ := hq
      rw [List.mem_append] at hx
      rcases hx with hx | hx
      · exact Or.inl hx
      · rw [List.mem_singleton] at hx
        subst hx
        have h2 := List.of_mem_filter hm
        exact Or.inr (by simpa using h2)

theorem stepLeft_mem (ag : AugmentedGraph) (p q : List NT)
    (hq : q ∈ stepLeft ag p) (x : NT) (hx : x ∈ q) :
    x ∈ p ∨ supOk ag x.id = true := by
  unfold stepLeft at hq
  cases hl : p.head? with
  | none =>
      rw [hl] at hq
      cases hq
  | some y =>
      rw [hl] at hq
      rw [List.mem_map] at hq
      obtain ⟨m, hm, rfl⟩ := hq
      rw [List.mem_cons] at hx
      rcases hx with hx | hx
      · subst hx
        have h2 := List.of_mem_filter hm
        exact Or.inr (by simpa using h2)
      · exact Or.inl hx

/-- Claim C3: neither `bfs_left` nor `bfs_right` ever visits a node whose
support is zero: no path in either search's result set contains a
zero-support node other than possibly the search's starting element. -/
theorem bfs_skips_zero_support (rf : RepresentativeTraversalFinder) (n : NT) :
    (∀ pr ∈ bfs_left rf n, ∀ x ∈ pr.2,
        x = n ∨ nodeSupportOf rf.augmented x.id ≠ Support.zero) ∧
      (∀ pr ∈ bfs_right rf n, ∀ x ∈ pr.2,
        x = n ∨ nodeSupportOf rf.augmented x.id ≠ Support.zero) := by
  have hQ : ∀ x : NT, supOk rf.augmented x.id = true →
      (x = n ∨ nodeSupportOf rf.augmented x.id ≠ Support.zero) := by
    intro x hx
    right
    rw [supOk, decide_eq_true_eq] at hx
    exact hx
  have hinit : ∀ p ∈ ([[n]] : List (List NT)), ∀ x ∈ p,
      x = n ∨ nodeSupportOf rf.augmented x.id ≠ Support.zero := by
    intro p hp x hx
    rw [List.mem_singleton] at hp
    subst hp
    rw [List.mem_singleton] at hx
    exact Or.inl hx
  constructor
  · intro pr hpr x hx
    unfold bfs_left at hpr
    have hpr' := List.take_subset _ _ hpr
    rw [List.mem_map] at hpr'
    obtain ⟨p, hp, rfl⟩ := hpr'
    refine bfsGo_invariant (onRefHead rf.index) (stepLeft rf.augmented)
      (fun p => ∀ x ∈ p, x = n ∨ nodeSupportOf rf.augmented x.id ≠ Support.zero)
      ?_ rf.max_depth [[n]] hinit p hp x hx
    intro p hP q hq y hy
    rcases stepLeft_mem _ _ _ hq y hy with h | h
    · exact hP y h
    · exact hQ y h
  · intro pr hpr x hx
    unfold bfs_right at hpr
    have hpr' := List.take_subset _ _ hpr
    rw [List.mem_map] at hpr'
    obtain ⟨p, hp, rfl⟩ := hpr'
    refine bfsGo_invariant (onRefLast rf.index) (stepRight rf.augmented)
      (fun p => ∀ x ∈ p, x = n ∨ nodeSupportOf rf.augmented x.id ≠ Support.zero)
      ?_ rf.max_depth [[n]] hinit p hp x hx
    intro p hP q hq y hy
    rcases stepRight_mem _ _ _ hq y hy with h | h
    · exact hP y h
    · exact hQ y h

/-- Witness for C3: in the leftward search from node 4 of the witness graph,
the discovered path visits node 1, which indeed has nonzero support. -/
theorem bfs_skips_zero_support_witness :
    ((2, [(⟨1, false⟩ : NT), ⟨4, false⟩]) : ℕ × List NT) ∈ bfs_left rfW ⟨4, false⟩ ∧
      ((⟨1, false⟩ : NT) = ⟨4, false⟩ ∨
        nodeSupportOf rfW.augmented (⟨1, false⟩ : NT).id ≠ Support.zero) :=
  ⟨by decide,
    (bfs_skips_zero_support rfW ⟨4, false⟩).1
      ((2, [(⟨1, false⟩ : NT), ⟨4, false⟩]) : ℕ × List NT) (by decide)
      (⟨1, false⟩ : NT) (by decide)⟩

/-! ## Claim C2 -/

theorem foldl_support_min_forward :
    ∀ (l : List Support) (a : Support),
      (l.foldl support_min a).forward =
        l.foldl (fun q s => min q s.forward) a.forward := by
  intro l
  induction l with
  | nil => intro a; rfl
  | cons s rest ih =>
      intro a
      rw [List.foldl_cons, List.foldl_cons, ih]
      rfl

theorem foldl_support_min_reverse :
    ∀ (l : List Support) (a : Support),
      (l.foldl support_min a).reverse =
        l.foldl (fun q s => min q s.reverse) a.reverse := by
  intro l
  induction l with
  | nil => intro a; rfl
  | cons s rest ih =>
      intro a
      rw [List.foldl_cons, List.foldl_cons, ih]
      rfl

theorem foldl_min_le_init (f : Support → ℚ) :
    ∀ (l : List Support) (a : ℚ), l.foldl (fun q s => min q (f s)) a ≤ a := by
  intro l
  induction l with
  | nil => intro a; exact le_refl a
  | cons s rest ih =>
      intro a
      rw [List.foldl_cons]
      exact le_trans (ih (min a (f s))) (min_le_left _ _)

theorem foldl_min_le_mem (f : Support → ℚ) :
    ∀ (l : List Support) (a : ℚ) (s : Support), s ∈ l →
      l.foldl (fun q x => min q (f x)) a ≤ f s := by
  intro l
  induction l with
  | nil =>
      intro a s h
      cases h
  | cons x rest ih =>
      intro a s h
      rw [List.foldl_cons]
      rcases List.mem_cons.1 h with h | h
      · subst h
        exact le_trans (foldl_min_le_init f rest _) (min_le_right _ _)
      · exact ih _ _ h

theorem foldl_min_attained (f : Support → ℚ) :
    ∀ (l : List Support) (a : ℚ),
      l.foldl (fun q x => min q (f x)) a = a ∨
        ∃ s ∈ l, l.foldl (fun q x => min q (f x)) a = f s := by
  intro l
  induction l with
  | nil => intro a; exact Or.inl rfl
  | cons x rest ih =>
      intro a
      rw [List.foldl_cons]
      rcases ih (min a (f x)) with h | ⟨s, hs, h⟩
      · rcases min_choice a (f x) with hm | hm
        · left
          rw [h, hm]
        · right
          exact ⟨x, List.mem_cons_self x rest, by rw [h, hm]⟩
      · right
        exact ⟨s, List.mem_cons_of_mem _ hs, h⟩

/-- The minimum support of a nonempty path is a per-strand lower bound on all
constituent supports, and each strand of it is attained by a constituent. -/
theorem min_support_in_path_spec (ag : AugmentedGraph) (p : List NT)
    (hp : p ≠ []) :
    (∀ s ∈ constituentSupports ag p,
        (min_support_in_path ag p).forward ≤ s.forward ∧
          (min_support_in_path ag p).reverse ≤ s.reverse) ∧
      (∃ s ∈ constituentSupports ag p,
        (min_support_in_path ag p).forward = s.forward) ∧
      (∃ s ∈ constituentSupports ag p,
        (min_support_in_path ag p).reverse = s.reverse) := by
  cases hcs : constituentSupports ag p with
  | nil =>
      exfalso
      cases p with
      | nil => exact hp rfl
      | cons x xs => simp [constituentSupports] at hcs
  | cons a L =>
      have hm : min_support_in_path ag p = L.foldl support_min a := by
        unfold min_support_in_path
        rw [hcs]
      rw [hm]
      refine ⟨?_, ?_, ?_⟩
      · intro s hs
        rw [List.mem_cons] at hs
        constructor
        · rw [foldl_support_min_forward]
          rcases hs with rfl | hs
          · exact foldl_min_le_init _ _ _
          · exact foldl_min_le_mem _ _ _ _ hs
        · rw [foldl_support_min_reverse]
          rcases hs with rfl | hs
          · exact foldl_min_le_init _ _ _
          · exact foldl_min_le_mem _ _ _ _ hs
      · rcases foldl_min_attained (fun s => s.forward) L a.forward with h | ⟨s, hs, h⟩
        · exact ⟨a, List.mem_cons_self _ _, by rw [foldl_support_min_forward]; exact h⟩
        · exact ⟨s, List.mem_cons_of_mem _ hs, by rw [foldl_support_min_forward]; exact h⟩
      · rcases foldl_min_attained (fun s => s.reverse) L a.reverse with h | ⟨s, hs, h⟩
        · exact ⟨a, List.mem_cons_self _ _, by rw [foldl_support_min_reverse]; exact h⟩
        · exact ⟨s, List.mem_cons_of_mem _ hs, by rw [foldl_support_min_reverse]; exact h⟩

theorem find_bubble_eq (rf : RepresentativeTraversalFinder) (el : ℕ ⊕ Edge)
    (sup : Support) (p : List NT) (h : find_bubble rf el = some (sup, p)) :
    sup = min_support_in_path rf.augmented p ∧ validBubble rf.index p = true := by
  unfold find_bubble at h
  obtain ⟨q, hq, hqe⟩ := Option.map_eq_some'.1 h
  have hq2 : q = p := congrArg Prod.snd hqe
  subst hq2
  have hsup : sup = min_support_in_path rf.augmented q :=
    (congrArg Prod.fst hqe).symm
  exact ⟨hsup, List.of_mem_filter (List.argmin_mem hq)⟩

theorem validBubble_ne_nil {index : List ℕ} {p : List NT}
    (h : validBubble index p = true) : p ≠ [] := by
  intro he
  subst he
  simp [validBubble] at h

/-- Claim C2: the Support component of every bubble returned by `find_bubble`
is the per-strand minimum of the Support values of all constituent nodes and
edges of the bubble (the reference-path endpoint nodes and their connecting
edges included): per strand it is a lower bound on every constituent support
and is attained by one of them. -/
theorem find_bubble_support_is_min (rf : RepresentativeTraversalFinder)
    (el : ℕ ⊕ Edge) (sup : Support) (p : List NT)
    (h : find_bubble rf el = some (sup, p)) :
    (∀ s ∈ constituentSupports rf.augmented p,
        sup.forward ≤ s.forward ∧ sup.reverse ≤ s.reverse) ∧
      (∃ s ∈ constituentSupports rf.augmented p, sup.forward = s.forward) ∧
      (∃ s ∈ constituentSupports rf.augmented p, sup.reverse = s.reverse) := by
  obtain ⟨hsup, hval⟩ := find_bubble_eq rf el sup p h
  rw [hsup]
  exact min_support_in_path_spec rf.augmented p (validBubble_ne_nil hval)

/-- Witness for C2: the bubble found for node 4 of the witness graph carries
support (1, 0), and its forward strand is attained by a constituent. -/
theorem find_bubble_support_is_min_witness :
    find_bubble rfW (Sum.inl 4) =
        some (⟨1, 0⟩, [⟨1, false⟩, ⟨4, false⟩, ⟨3, false⟩]) ∧
      (∃ s ∈ constituentSupports rfW.augmented
          [⟨1, false⟩, ⟨4, false⟩, ⟨3, false⟩],
        (⟨1, 0⟩ : Support).forward = s.forward) :=
  ⟨by decide,
    (find_bubble_support_is_min rfW (Sum.inl 4) ⟨1, 0⟩
      [⟨1, false⟩, ⟨4, false⟩, ⟨3, false⟩] (by decide)).2.1⟩

/-! ## Claim C1 -/

theorem validBubble_props (index : List ℕ) (p : List NT)
    (hv : validBubble index p = true) :
    (∃ (a b : NT) (i j : ℕ), p.head? = some a ∧ p.getLast? = some b ∧ i ≤ j ∧
        index[i]? = some a.id ∧ index[j]? = some b.id) ∧
      (p.map (fun x => x.id)).Nodup := by
  unfold validBubble at hv
  split at hv
  next a b h1 h2 =>
    simp only [Bool.and_eq_true, Bool.not_eq_true', decide_eq_true_eq] at hv
    obtain ⟨⟨⟨⟨⟨hba, hbb⟩, hma⟩, hmb⟩, hle⟩, hnd⟩ := hv
    refine ⟨⟨a, b, List.indexOf a.id index, List.indexOf b.id index,
      h1, h2, hle, ?_, ?_⟩, hnd⟩
    · have hlt := List.indexOf_lt_length.2 hma
      rw [List.getElem?_eq_getElem hlt, List.getElem_indexOf hlt]
    · have hlt := List.indexOf_lt_length.2 hmb
      rw [List.getElem?_eq_getElem hlt, List.getElem_indexOf hlt]
  next =>
    cases hv

theorem primary_traversal_props (index : List ℕ) (site : Snarl) (p0 : List NT)
    (hidx : index.Nodup) (h : primary_traversal index site = some p0) :
    (∃ (a b : NT) (i j : ℕ), p0.head? = some a ∧ p0.getLast? = some b ∧ i ≤ j ∧
        index[i]? = some a.id ∧ index[j]? = some b.id) ∧
      (p0.map (fun x => x.id)).Nodup := by
  unfold primary_traversal at h
  split at h
  case isTrue hc =>
    obtain ⟨hs, hf, hle⟩ := hc
    injection h with h
    subst h
    set i0 := List.indexOf site.start.id index with hi0def
    set i1 := List.indexOf site.finish.id index with hi1def
    have hi0 : i0 < index.length := List.indexOf_lt_length.2 hs
    have hi1 : i1 < index.length := List.indexOf_lt_length.2 hf
    set seg := (index.drop i0).take (i1 - i0 + 1) with hsegdef
    have hlen : seg.length = i1 - i0 + 1 := by
      rw [hsegdef, List.length_take, List.length_drop]
      omega
    have hget : ∀ m : ℕ, m < i1 - i0 + 1 → seg[m]? = index[i0 + m]? := by
      intro m hm
      rw [hsegdef, List.getElem?_take, if_pos hm]
      exact List.getElem?_drop _ _ _
    have hhead : seg.head? = some site.start.id := by
      rw [List.head?_eq_getElem?, hget 0 (by omega)]
      have h0 : i0 + 0 = i0 := by omega
      rw [h0, List.getElem?_eq_getElem hi0, List.getElem_indexOf hi0]
    have hlast : seg.getLast? = some site.finish.id := by
      rw [List.getLast?_eq_getElem?, hlen]
      have h1 : i1 - i0 + 1 - 1 = i1 - i0 := by omega
      rw [h1, hget (i1 - i0) (by omega)]
      have h2 : i0 + (i1 - i0) = i1 := by omega
      rw [h2, List.getElem?_eq_getElem hi1, List.getElem_indexOf hi1]
    constructor
    · refine ⟨⟨site.start.id, false⟩, ⟨site.finish.id, false⟩, i0, i1,
        ?_, ?_, hle, ?_, ?_⟩
      · rw [List.head?_map, hhead]
        rfl
      · rw [List.getLast?_map, hlast]
        rfl
      · rw [List.getElem?_eq_getElem hi0, List.getElem_indexOf hi0]
      · rw [List.getElem?_eq_getElem hi1, List.getElem_indexOf hi1]
    · have hmm : ((seg.map (fun i => (⟨i, false⟩ : NT))).map (fun x => x.id)) = seg := by
        rw [List.map_map]
        exact List.map_id seg
      rw [hmm]
      exact List.Nodup.sublist
        ((List.take_sublist _ _).trans (List.drop_sublist _ _)) hidx
  case isFalse hc =>
    cases h

theorem mem_repBubbles (rf : RepresentativeTraversalFinder) (site : Snarl)
    (p : List NT) (hp : p ∈ repBubbles rf site) :
    ∃ el sup, find_bubble rf el = some (sup, p) := by
  unfold repBubbles at hp
  rw [List.mem_filterMap] at hp
  obtain ⟨el, hel, hmap⟩ := hp
  obtain ⟨pr, hpr, hpr2⟩ := Option.map_eq_some'.1 hmap
  obtain ⟨s, p2⟩ := pr
  dsimp at hpr2
  subst hpr2
  exact ⟨el, s, hpr⟩

theorem mem_rep_find_traversals (rf : RepresentativeTraversalFinder)
    (site : Snarl) (p : List NT) :
    p ∈ rep_find_traversals rf site →
      p ∈ repBubbles rf site ∨ primary_traversal rf.index site = some p := by
  unfold rep_find_traversals
  split
  next p0 hprim =>
    intro hp
    rcases List.mem_cons.1 hp with rfl | hp
    · exact Or.inr hprim
    · exact Or.inl (List.mem_of_mem_filter (List.mem_dedup.1 hp))
  next hprim =>
    intro hp
    exact Or.inl (List.mem_dedup.1 hp)

/-- Claim C1: when `RepresentativeTraversalFinder::find_traversals` emits
traversals for a site, every emitted traversal has its two endpoints on the
reference path index, ordered consistently with reference-path position; no
emitted traversal visits the same node twice; and when the site touches the
reference path the first emitted traversal is exactly the primary-path
traversal through the site. -/
theorem representative_find_traversals_correct (rf : RepresentativeTraversalFinder)
    (site : Snarl) (hidx : rf.index.Nodup) :
    (∀ p ∈ rep_find_traversals rf site,
        (∃ (a b : NT) (i j : ℕ), p.head? = some a ∧ p.getLast? = some b ∧ i ≤ j ∧
            rf.index[i]? = some a.id ∧ rf.index[j]? = some b.id) ∧
          (p.map (fun x => x.id)).Nodup) ∧
      (∀ p0, primary_traversal rf.index site = some p0 →
        (rep_find_traversals rf site).head? = some p0) := by
  constructor
  · intro p hp
    rcases mem_rep_find_traversals rf site p hp with hb | hprim
    · obtain ⟨el, sup, hfb⟩ := mem_repBubbles rf site p hb
      exact validBubble_props rf.index p (find_bubble_eq rf el sup p hfb).2
    · exact primary_traversal_props rf.index site p hidx hprim
  · intro p0 hprim
    unfold rep_find_traversals
    rw [hprim]
    rfl

/-- Witness for C1: in the witness world the alternate bubble 1-4-3 is
emitted with reference-consistent endpoints and no repeated node, and the
primary-path traversal 1-2-3 comes first. -/
theorem representative_find_traversals_correct_witness :
    ((∃ (a b : NT) (i j : ℕ),
          ([⟨1, false⟩, ⟨4, false⟩, ⟨3, false⟩] : List NT).head? = some a ∧
          ([⟨1, false⟩, ⟨4, false⟩, ⟨3, false⟩] : List NT).getLast? = some b ∧
          i ≤ j ∧ rfW.index[i]? = some a.id ∧ rfW.index[j]? = some b.id) ∧
        (([⟨1, false⟩, ⟨4, false⟩, ⟨3, false⟩] : List NT).map
          (fun x => x.id)).Nodup) ∧
      (rep_find_traversals rfW siteW).head? =
        some [⟨1, false⟩, ⟨2, false⟩, ⟨3, false⟩] :=
  ⟨(representative_find_traversals_correct rfW siteW (by decide)).1
      [⟨1, false⟩, ⟨4, false⟩, ⟨3, false⟩] (by decide),
    (representative_find_traversals_correct rfW siteW (by decide)).2
      [⟨1, false⟩, ⟨2, false⟩, ⟨3, false⟩] (by decide)⟩

/-! ## Claim C5 -/

theorem head?_destruct {α : Type} {p : List α} {a : α} (h : p.head? = some a) :
    ∃ t, p = a :: t := by
  cases p with
  | nil => cases h
  | cons x t =>
      injection h with h
      exact ⟨t, by rw [h]⟩

theorem mem_successors {g : VGGraph} {x n : NT} :
    n ∈ successors g x ↔ (x, n) ∈ g.edges := by
  unfold successors
  rw [List.mem_dedup, List.mem_map]
  constructor
  · rintro ⟨⟨a, b⟩, he, rfl⟩
    rw [List.mem_filter] at he
    obtain ⟨hmem, hd⟩ := he
    rw [decide_eq_true_eq] at hd
    dsimp at hd ⊢
    subst hd
    exact hmem
  · intro h
    exact ⟨(x, n), List.mem_filter.2 ⟨h, by simp⟩, rfl⟩

theorem exhaustiveDFS_sound (g : VGGraph) (goal : NT) :
    ∀ (fuel : ℕ) (cur : NT) (visited : List ℕ), cur.id ∈ visited →
      ∀ p ∈ exhaustiveDFS g goal fuel cur visited,
        GoodPath g goal cur visited p := by
  intro fuel
  induction fuel with
  | zero =>
      intro cur visited hcur p hp
      unfold exhaustiveDFS at hp
      split at hp
      next hgoal =>
        rw [List.mem_singleton] at hp
        subst hp
        subst hgoal
        exact ⟨rfl, by simp, rfl, by simp, by simp⟩
      next => cases hp
  | succ fuel ih =>
      intro cur visited hcur p hp
      unfold exhaustiveDFS at hp
      split at hp
      next hgoal =>
        rw [List.mem_singleton] at hp
        subst hp
        subst hgoal
        exact ⟨rfl, by simp, rfl, by simp, by simp⟩
      next hgoal =>
        rw [List.mem_flatMap] at hp
        obtain ⟨n, hn, hp⟩ := hp
        rw [List.mem_map] at hp
        obtain ⟨q, hq, rfl⟩ := hp
        have hnfil := List.of_mem_filter hn
        rw [decide_eq_true_eq] at hnfil
        have hnsucc := mem_successors.1 (List.mem_of_mem_filter hn)
        obtain ⟨hqh, hql, hqc, hqn, hqt⟩ :=
          ih n (n.id :: visited) (List.mem_cons_self _ _) q hq
        obtain ⟨qt, rfl⟩ : ∃ qt, q = n :: qt := head?_destruct hqh
        refine ⟨rfl, ?_, ?_, ?_, ?_⟩
        · rw [List.getLast?_cons_cons]
          exact hql
        · show (decide ((cur, n) ∈ g.edges) && isEdgeChain g (n :: qt)) = true
          rw [Bool.and_eq_true, decide_eq_true_eq]
          exact ⟨hnsucc, hqc⟩
        · rw [List.map_cons, List.nodup_cons]
          refine ⟨?_, hqn⟩
          intro hmem
          rw [List.mem_map] at hmem
          obtain ⟨x, hx, hxid⟩ := hmem
          rcases List.mem_cons.1 hx with rfl | hx
          · exact hnfil (by rw [hxid]; exact hcur)
          · exact hqt x hx (by rw [List.mem_cons]; right; rw [hxid]; exact hcur)
        · intro x hx
          rcases List.mem_cons.1 hx with rfl | hx
          · exact hnfil
          · intro hxv
            exact hqt x hx (List.mem_cons_of_mem _ hxv)

theorem exhaustiveDFS_complete (g : VGGraph) (goal : NT) :
    ∀ (fuel : ℕ) (cur : NT) (visited : List ℕ), cur.id ∈ visited →
      ∀ p, GoodPath g goal cur visited p → p.length ≤ fuel + 1 →
        p ∈ exhaustiveDFS g goal fuel cur visited := by
  intro fuel
  induction fuel with
  | zero =>
      intro cur visited hcur p hgp hlen
      obtain ⟨hh, hl, hc, hn, ht⟩ := hgp
      obtain ⟨t, rfl⟩ := head?_destruct hh
      have ht0 : t = [] := by
        cases t with
        | nil => rfl
        | cons y t2 =>
            exfalso
            rw [List.length_cons, List.length_cons] at hlen
            omega
      subst ht0
      have hcg : cur = goal := by
        simp at hl
        exact hl
      subst hcg
      unfold exhaustiveDFS
      rw [if_pos rfl]
      exact List.mem_singleton.2 rfl
  | succ fuel ih =>
      intro cur visited hcur p hgp hlen
      obtain ⟨hh, hl, hc, hn, ht⟩ := hgp
      obtain ⟨t, rfl⟩ := head?_destruct hh
      by_cases hcg : cur = goal
      · subst hcg
        have ht0 : t = [] := by
          cases t with
          | nil => rfl
          | cons y t2 =>
              exfalso
              rw [List.getLast?_cons_cons] at hl
              have hmem := mem_of_getLast?_eq hl
              rw [List.map_cons, List.nodup_cons] at hn
              exact hn.1 (List.mem_map.2 ⟨_, hmem, rfl⟩)
        subst ht0
        unfold exhaustiveDFS
        rw [if_pos rfl]
        exact List.mem_singleton.2 rfl
      · obtain ⟨n, t2, rfl⟩ : ∃ n t2, t = n :: t2 := by
          cases t with
          | nil =>
              exfalso
              simp at hl
              exact hcg hl
          | cons n t2 => exact ⟨n, t2, rfl⟩
        have hch : (decide ((cur, n) ∈ g.edges) && isEdgeChain g (n :: t2)) = true := hc
        rw [Bool.and_eq_true, decide_eq_true_eq] at hch
        unfold exhaustiveDFS
        rw [if_neg hcg, List.mem_flatMap]
        refine ⟨n, ?_, ?_⟩
        · rw [List.mem_filter]
          refine ⟨mem_successors.2 hch.1, ?_⟩
          rw [decide_eq_true_eq]
          exact ht n (List.mem_cons_self _ _)
        · rw [List.mem_map]
          refine ⟨n :: t2, ?_, rfl⟩
          refine ih n (n.id :: visited) (List.mem_cons_self _ _) (n :: t2)
            ⟨rfl, ?_, hch.2, ?_, ?_⟩ ?_
          · rw [List.getLast?_cons_cons] at hl
            exact hl
          · rw [List.map_cons, List.nodup_cons] at hn
            exact hn.2
          · intro x hx
            rw [List.mem_cons]
            push_neg
            constructor
            · rw [List.map_cons, List.nodup_cons] at hn
              have hn2 := hn.2
              rw [List.map_cons, List.nodup_cons] at hn2
              intro hxe
              exact hn2.1 (List.mem_map.2 ⟨x, hx, hxe⟩)
            · exact ht x (List.mem_cons_of_mem _ hx)
          · rw [List.length_cons] at hlen ⊢
            rw [List.length_cons] at hlen
            omega

theorem chain_tail_targets (g : VGGraph) :
    ∀ (p : List NT), isEdgeChain g p = true →
      ∀ x ∈ p.tail, ∃ u, (u, x) ∈ g.edges := by
  intro p
  induction p with
  | nil =>
      intro h x hx
      cases hx
  | cons a t ih =>
      cases t with
      | nil =>
          intro h x hx
          cases hx
      | cons b t2 =>
          intro h x hx
          have hc : (decide ((a, b) ∈ g.edges) && isEdgeChain g (b :: t2)) = true := h
          rw [Bool.and_eq_true, decide_eq_true_eq] at hc
          rcases List.mem_cons.1 hx with rfl | hx2
          · exact ⟨a, hc.1⟩
          · exact ih hc.2 x hx2

theorem goodPath_iff_simple (g : VGGraph) (site : Snarl) (p : List NT) :
    GoodPath g site.finish site.start [site.start.id] p ↔
      IsSimpleTraversal g site p := by
  unfold GoodPath IsSimpleTraversal
  constructor
  · rintro ⟨h1, h2, h3, h4, h5⟩
    exact ⟨h1, h2, h3, h4⟩
  · rintro ⟨h1, h2, h3, h4⟩
    refine ⟨h1, h2, h3, h4, ?_⟩
    intro x hx hmem
    rw [List.mem_singleton] at hmem
    obtain ⟨t, rfl⟩ := head?_destruct h1
    rw [List.map_cons, List.nodup_cons] at h4
    exact h4.1 (List.mem_map.2 ⟨x, hx, hmem⟩)

theorem simple_length_le (g : VGGraph) (site : Snarl) (p : List NT)
    (h : IsSimpleTraversal g site p) : p.length ≤ g.edges.length + 1 := by
  obtain ⟨h1, h2, h3, h4⟩ := h
  obtain ⟨t, rfl⟩ := head?_destruct h1
  have hsub : (t.map (fun x => x.id)) ⊆ g.edges.map (fun e => e.2.id) := by
    intro i hi
    rw [List.mem_map] at hi
    obtain ⟨x, hx, rfl⟩ := hi
    obtain ⟨u, hu⟩ := chain_tail_targets g _ h3 x hx
    exact List.mem_map.2 ⟨(u, x), hu, rfl⟩
  rw [List.map_cons, List.nodup_cons] at h4
  have hle := (List.Nodup.subperm h4.2 hsub).length_le
  rw [List.length_map, List.length_map] at hle
  rw [List.length_cons]
  omega

/-- Claim C5: `ExhaustiveTraversalFinder::find_traversals` enumerates,
without duplication, exactly the simple start-to-end paths of the site: its
result list is duplicate-free, a traversal is in it precisely when it is a
simple path from the start boundary to the end boundary, and every returned
traversal starts and ends on the site's boundary nodes.  Hence for a site
with exactly N distinct simple boundary-to-boundary paths it returns exactly
N traversals. -/
theorem exhaustive_enumerates_simple_paths (g : VGGraph) (site : Snarl) :
    (exh_find_traversals g site).Nodup ∧
      (∀ p, p ∈ exh_find_traversals g site ↔ IsSimpleTraversal g site p) ∧
      (∀ p ∈ exh_find_traversals g site,
        p.head? = some site.start ∧ p.getLast? = some site.finish) := by
  have hmem : ∀ p, p ∈ exh_find_traversals g site ↔ IsSimpleTraversal g site p := by
    intro p
    unfold exh_find_traversals
    rw [List.mem_dedup]
    constructor
    · intro hp
      exact (goodPath_iff_simple g site p).1
        (exhaustiveDFS_sound g site.finish _ site.start [site.start.id]
          (List.mem_singleton.2 rfl) p hp)
    · intro hs
      refine exhaustiveDFS_complete g site.finish _ site.start [site.start.id]
        (List.mem_singleton.2 rfl) p ((goodPath_iff_simple g site p).2 hs) ?_
      have := simple_length_le g site p hs
      omega
  refine ⟨List.nodup_dedup _, hmem, ?_⟩
  intro p hp
  obtain ⟨h1, h2, h3, h4⟩ := (hmem p).1 hp
  exact ⟨h1, h2⟩

/-- Witness for C5: in the witness graph the simple path 1-4-3 is returned
and runs boundary to boundary. -/
theorem exhaustive_enumerates_simple_paths_witness :
    (([⟨1, false⟩, ⟨4, false⟩, ⟨3, false⟩] : List NT) ∈
        exh_find_traversals gW siteW) ∧
      ([⟨1, false⟩, ⟨4, false⟩, ⟨3, false⟩] : List NT).head? = some siteW.start ∧
      ([⟨1, false⟩, ⟨4, false⟩, ⟨3, false⟩] : List NT).getLast? = some siteW.finish := by
  have h := exhaustive_enumerates_simple_paths gW siteW
  have hmem : ([⟨1, false⟩, ⟨4, false⟩, ⟨3, false⟩] : List NT) ∈
      exh_find_traversals gW siteW :=
    (h.2.1 _).2 (by decide)
  exact ⟨hmem, h.2.2 _ hmem⟩

end vg
